import Mathlib

/-
Verification of the documentation preprocessing pipeline in
docs/source/conf.py: the source-text sanitizer (hook `_clean`) and the
display-math tagger (hook `_nowrap_all_math`), both gated on the LaTeX
builder.

Text buffers are modelled as lists of Unicode code points (Python `str`
is a sequence of code points).  The document tree is modelled as a
mutually inductive tree/forest of nodes carrying a kind and an attribute
dictionary, as docutils nodes do.
-/

namespace CoexDocs

/-- The builder name both hooks compare against: `app.builder.name != "latex"`. -/
def latexName : String := "latex"

/-- The character class of the regex `_CTRL = [\x00-\x08\x0B-\x1F]`
(note: the range `\x0B-\x1F` contains `\x0D`). -/
def ctrlMatch (c : Nat) : Bool :=
  (c ≤ 0x08) || (0x0B ≤ c && c ≤ 0x1F)

/-- `_CTRL.sub("", txt)`: delete every character matched by the class. -/
def ctrlSub (s : List Nat) : List Nat :=
  s.filter (fun c => !ctrlMatch c)

/-- The code point of the arrow glyph, the single key of `_ARROWS`. -/
def arrowChar : Nat := 0x2794

/-- The replacement value mapped to the arrow glyph: the thirteen code
points of the raw string of a dollar sign, backslash-rightarrow, and a
closing dollar sign. -/
def arrowValue : List Nat :=
  [0x24, 0x5C, 0x72, 0x69, 0x67, 0x68, 0x74, 0x61, 0x72, 0x72, 0x6F, 0x77, 0x24]

/-- `_ARROWS` as an ordered association list (Python dicts iterate in
insertion order). -/
def _ARROWS : List (List Nat × List Nat) :=
  [([arrowChar], arrowValue)]

/-- Worker for `str.replace`: scan left to right; when the key matches
at the cursor, emit the value and skip the remaining `key.length - 1`
characters of the match; otherwise copy one character.  The `skip`
counter makes the recursion structural on the buffer. -/
def replaceGo (key val : List Nat) : Nat → List Nat → List Nat
  | _, [] => []
  | skip + 1, _ :: rest => replaceGo key val skip rest
  | 0, c :: rest =>
    if key.isPrefixOf (c :: rest) then
      val ++ replaceGo key val (key.length - 1) rest
    else
      c :: replaceGo key val 0 rest

/-- `txt.replace(key, val)`: replace all non-overlapping occurrences,
left to right.  The configuration's only key is the one-character arrow
glyph, so Python's empty-pattern corner case is never exercised; an
empty key leaves the buffer unchanged here. -/
def replaceAll (key val s : List Nat) : List Nat :=
  if key.isEmpty then s else replaceGo key val 0 s

/-- The `for bad, good in _ARROWS.items(): txt = txt.replace(bad, good)`
loop: one full replacement pass per table entry, in table order. -/
def applyTable (table : List (List Nat × List Nat)) (s : List Nat) : List Nat :=
  table.foldl (fun txt p => replaceAll p.1 p.2 txt) s

/-- The `_clean` hook on the buffer contents: a no-op unless the builder
is named `latex`; otherwise delete the `_CTRL` matches, then run the
`_ARROWS` replacement loop. -/
def _clean (builderName : String) (s : List Nat) : List Nat :=
  if builderName ≠ latexName then s
  else applyTable _ARROWS (ctrlSub s)

/-- Worker for the spec-side scan, structural on the buffer via the same
`skip` device: at each cursor position take the first table entry (in
declared order) whose key matches there, emit its value, and continue
past the matched key without rescanning the emitted value. -/
def scanGo (table : List (List Nat × List Nat)) : Nat → List Nat → List Nat
  | _, [] => []
  | skip + 1, _ :: rest => scanGo table skip rest
  | 0, c :: rest =>
    match table.find? (fun p => !p.1.isEmpty && p.1.isPrefixOf (c :: rest)) with
    | some kv => kv.2 ++ scanGo table (kv.1.length - 1) rest
    | none => c :: scanGo table 0 rest

/-- Modelled from the spec: the table applied "in a single left-to-right
scan, not repeated independent passes", where "a replacement value is
never itself re-scanned for a later key in the same pass".  This is the
spec-side definition that the code-side `applyTable` is compared with. -/
def onePassScan (table : List (List Nat × List Nat)) (s : List Nat) : List Nat :=
  scanGo table 0 s

/-- Number of start positions at which `pat` occurs in `s` as a
contiguous sublist. -/
def occCount (pat s : List Nat) : Nat :=
  (List.range (s.length + 1)).countP (fun i => pat.isPrefixOf (s.drop i))

/-- Characters that are neither C0 control characters (below 0x20) nor
the arrow glyph, i.e. neither removable nor replaceable by `_clean`. -/
def keepHigh (d : Nat) : Bool :=
  decide (32 ≤ d) && decide (d ≠ arrowChar)

/-- Node kinds: the two display-math variants the tagger recognizes
(`nodes.math_block` and `addnodes.displaymath`) and every other docutils
node kind, identified by its class name. -/
inductive NodeKind where
  | math_block
  | displaymath
  | other (descr : String)
deriving DecidableEq

/-- Attribute values stored in a node's attribute dictionary. -/
inductive AttrVal where
  | boolVal (b : Bool)
  | strVal (s : String)
deriving DecidableEq

/-- A node's attribute dictionary, as an insertion-ordered association
list (docutils node attributes are a Python dict). -/
abbrev Attrs := List (String × AttrVal)

/-- `node[key] = v`: dict item assignment — overwrite the entry if the
key is present, else append a new entry. -/
def setAttr (attrs : Attrs) (key : String) (v : AttrVal) : Attrs :=
  if attrs.any (fun p => p.1 == key) then
    attrs.map (fun p => if p.1 == key then (key, v) else p)
  else
    attrs ++ [(key, v)]

mutual
inductive Tree where
  | node (kind : NodeKind) (attrs : Attrs) (children : Forest)
deriving DecidableEq
inductive Forest where
  | nil
  | cons (t : Tree) (ts : Forest)
deriving DecidableEq
end

/-- The `is_math` predicate of `_nowrap_all_math`: true for the docutils
block-math kind, and for the Sphinx display-math kind when that class
exists in the running Sphinx (`has_displaymath`). -/
def is_math (hasDisplaymath : Bool) (k : NodeKind) : Bool :=
  (k == NodeKind.math_block) || (hasDisplaymath && (k == NodeKind.displaymath))

mutual
/-- The `doctree.traverse(is_math)` loop with `nd["nowrap"] = True` on
every hit: every node of the tree is visited once and matched nodes get
their `nowrap` attribute set to true. -/
def tagTree (hd : Bool) : Tree → Tree
  | .node k attrs cs =>
    .node k (if is_math hd k then setAttr attrs "nowrap" (.boolVal true) else attrs)
      (tagForest hd cs)
def tagForest (hd : Bool) : Forest → Forest
  | .nil => .nil
  | .cons t ts => .cons (tagTree hd t) (tagForest hd ts)
end

/-- The `_nowrap_all_math` hook: a no-op unless the builder is named
`latex`; otherwise tag every display-math node in the tree. -/
def _nowrap_all_math (builderName : String) (hd : Bool) (t : Tree) : Tree :=
  if builderName ≠ latexName then t else tagTree hd t

mutual
/-- Preorder list of the (kind, attributes) pairs of all nodes. -/
def nodesList : Tree → List (NodeKind × Attrs)
  | .node k attrs cs => (k, attrs) :: nodesForest cs
def nodesForest : Forest → List (NodeKind × Attrs)
  | .nil => []
  | .cons t ts => nodesList t ++ nodesForest ts
end

mutual
/-- The tree with every attribute dictionary erased: its kind-and-child
skeleton. -/
def stripAttrs : Tree → Tree
  | .node k _ cs => .node k [] (stripAttrsForest cs)
def stripAttrsForest : Forest → Forest
  | .nil => .nil
  | .cons t ts => .cons (stripAttrs t) (stripAttrsForest ts)
end

/-- What tagging does to one (kind, attributes) pair. -/
def tagEntry (hd : Bool) (p : NodeKind × Attrs) : NodeKind × Attrs :=
  (p.1, if is_math hd p.1 then setAttr p.2 "nowrap" (.boolVal true) else p.2)

/-- Number of nodes of the tree whose kind is a recognized math kind. -/
def mathCount (hd : Bool) (t : Tree) : Nat :=
  (nodesList t).countP (fun p => is_math hd p.1)

/-- Number of nodes of the tree whose `nowrap` attribute is true. -/
def nowrapTrueCount (t : Tree) : Nat :=
  (nodesList t).countP (fun p => decide (p.2.lookup "nowrap" = some (.boolVal true)))

/-! Lemmas about single-character-key replacement, the only shape of key
in the `_ARROWS` table. -/

theorem replaceAll_nil (k : Nat) (val : List Nat) : replaceAll [k] val [] = [] := by
  simp [replaceAll, replaceGo]

theorem replaceAll_cons (k : Nat) (val : List Nat) (a : Nat) (rest : List Nat) :
    replaceAll [k] val (a :: rest) =
      if k = a then val ++ replaceAll [k] val rest else a :: replaceAll [k] val rest := by
  simp only [replaceAll, List.isEmpty, replaceGo, List.isPrefixOf, List.length_cons,
    List.length_nil, Bool.and_true, Nat.add_sub_cancel]
  by_cases h : k = a
  · simp [h]
  · simp [h]

theorem mem_replaceAll_single {c k : Nat} {val : List Nat} :
    ∀ {s : List Nat}, c ∈ replaceAll [k] val s → c ∈ s ∨ c ∈ val := by
  intro s
  induction s with
  | nil => rw [replaceAll_nil]; intro h; exact absurd h (List.not_mem_nil c)
  | cons a rest ih =>
    rw [replaceAll_cons]
    by_cases hk : k = a
    · rw [if_pos hk]
      intro h
      rcases List.mem_append.mp h with h | h
      · exact Or.inr h
      · rcases ih h with h | h
        · exact Or.inl (List.mem_cons_of_mem a h)
        · exact Or.inr h
    · rw [if_neg hk]
      intro h
      rcases List.mem_cons.mp h with h | h
      · exact Or.inl (List.mem_cons.mpr (Or.inl h))
      · rcases ih h with h | h
        · exact Or.inl (List.mem_cons_of_mem a h)
        · exact Or.inr h

theorem key_not_mem_replaceAll {k : Nat} {val : List Nat} (hval : k ∉ val) :
    ∀ s : List Nat, k ∉ replaceAll [k] val s := by
  intro s
  induction s with
  | nil => rw [replaceAll_nil]; exact List.not_mem_nil k
  | cons a rest ih =>
    rw [replaceAll_cons]
    by_cases hk : k = a
    · rw [if_pos hk]
      intro h
      rcases List.mem_append.mp h with h | h
      · exact hval h
      · exact ih h
    · rw [if_neg hk]
      intro h
      rcases List.mem_cons.mp h with h | h
      · exact hk h
      · exact ih h

theorem replaceAll_eq_self {k : Nat} {val : List Nat} :
    ∀ {s : List Nat}, k ∉ s → replaceAll [k] val s = s := by
  intro s
  induction s with
  | nil => intro _; exact replaceAll_nil k val
  | cons a rest ih =>
    intro h
    have h1 : ¬k = a := fun he => h (List.mem_cons.mpr (Or.inl he))
    rw [replaceAll_cons, if_neg h1, ih (fun hm => h (List.mem_cons_of_mem a hm))]

theorem count_replaceAll_eq {c k : Nat} {val : List Nat} (hck : c ≠ k) (hval : c ∉ val) :
    ∀ s : List Nat, (replaceAll [k] val s).count c = s.count c := by
  intro s
  induction s with
  | nil => rw [replaceAll_nil]
  | cons a rest ih =>
    have hca : c ≠ a ∨ k ≠ a := by
      by_cases hka : k = a
      · exact Or.inl (hka ▸ hck)
      · exact Or.inr hka
    rw [replaceAll_cons]
    by_cases hk : k = a
    · rw [if_pos hk, List.count_append, ih, List.count_eq_zero_of_not_mem hval,
        Nat.zero_add, List.count_cons_of_ne (hk ▸ hck)]
    · rw [if_neg hk]
      rcases eq_or_ne c a with hac | hac
      · subst hac
        rw [List.count_cons_self, List.count_cons_self, ih]
      · rw [List.count_cons_of_ne hac, List.count_cons_of_ne hac, ih]

theorem count_le_replaceAll {c k : Nat} {val : List Nat} (hck : c ≠ k) :
    ∀ s : List Nat, s.count c ≤ (replaceAll [k] val s).count c := by
  intro s
  induction s with
  | nil => rw [replaceAll_nil]
  | cons a rest ih =>
    rw [replaceAll_cons]
    by_cases hk : k = a
    · rw [if_pos hk, List.count_append, List.count_cons_of_ne (hk ▸ hck)]
      exact Nat.le_trans ih (Nat.le_add_left _ _)
    · rw [if_neg hk]
      rcases eq_or_ne c a with hac | hac
      · subst hac
        rw [List.count_cons_self, List.count_cons_self]
        exact Nat.succ_le_succ ih
      · rw [List.count_cons_of_ne hac, List.count_cons_of_ne hac]
        exact ih

theorem filter_sublist_replaceAll {k : Nat} {val : List Nat} {p : Nat → Bool}
    (hp : p k = false) :
    ∀ s : List Nat, List.Sublist (s.filter p) (replaceAll [k] val s) := by
  intro s
  induction s with
  | nil => rw [replaceAll_nil]; simp
  | cons a rest ih =>
    rw [replaceAll_cons]
    by_cases hk : k = a
    · have hpa : p a = false := hk ▸ hp
      rw [if_pos hk, List.filter_cons, hpa]
      simp only [Bool.false_eq_true, if_false]
      exact List.sublist_append_of_sublist_right ih
    · rw [if_neg hk, List.filter_cons]
      by_cases hpa : p a = true
      · rw [if_pos hpa]
        exact List.Sublist.cons₂ a ih
      · simp only [hpa]
        exact List.Sublist.cons a ih

theorem replaceAll_decomp {k : Nat} (val : List Nat) :
    ∀ {s : List Nat}, k ∈ s →
      ∃ A B : List Nat, replaceAll [k] val s = A ++ val ++ B := by
  intro s
  induction s with
  | nil => intro h; exact absurd h (List.not_mem_nil k)
  | cons a rest ih =>
    intro h
    by_cases hk : k = a
    · exact ⟨[], replaceAll [k] val rest, by rw [replaceAll_cons, if_pos hk]; simp⟩
    · have hm : k ∈ rest := by
        rcases List.mem_cons.mp h with h | h
        · exact absurd h hk
        · exact h
      rcases ih hm with ⟨A, B, hAB⟩
      exact ⟨a :: A, B, by rw [replaceAll_cons, if_neg hk, hAB]; simp⟩

/-! Lemmas connecting `_clean` to its two stages. -/

theorem clean_active (s : List Nat) :
    _clean latexName s = replaceAll [arrowChar] arrowValue (ctrlSub s) := by
  simp [_clean, applyTable, _ARROWS]

theorem arrowValue_lower : ∀ c ∈ arrowValue, 36 ≤ c := by decide

theorem arrowChar_not_mem_arrowValue : arrowChar ∉ arrowValue := by decide

theorem ctrlMatch_iff (c : Nat) : ctrlMatch c = true ↔ c ≤ 8 ∨ (11 ≤ c ∧ c ≤ 31) := by
  simp [ctrlMatch]

theorem mem_ctrlSub {c : Nat} {s : List Nat} (h : c ∈ ctrlSub s) : ctrlMatch c = false := by
  have := (List.mem_filter.mp h).2
  simpa using this

theorem ctrlMatch_eq_false_of_ge {c : Nat} (h : 32 ≤ c) : ctrlMatch c = false := by
  rcases Bool.eq_false_or_eq_true (ctrlMatch c) with ht | hf
  · exfalso
    have := (ctrlMatch_iff c).mp ht
    omega
  · exact hf

theorem clean_no_ctrl {c : Nat} {s : List Nat} (h : c ∈ _clean latexName s) :
    ctrlMatch c = false := by
  rw [clean_active] at h
  rcases mem_replaceAll_single h with h | h
  · exact mem_ctrlSub h
  · exact ctrlMatch_eq_false_of_ge (Nat.le_trans (by omega) (arrowValue_lower c h))

theorem clean_no_arrow (s : List Nat) : arrowChar ∉ _clean latexName s := by
  rw [clean_active]
  exact key_not_mem_replaceAll arrowChar_not_mem_arrowValue _

theorem clean_idem (s : List Nat) :
    _clean latexName (_clean latexName s) = _clean latexName s := by
  have h1 : ctrlSub (_clean latexName s) = _clean latexName s := by
    apply List.filter_eq_self.mpr
    intro c hc
    rw [clean_no_ctrl hc]
    rfl
  rw [clean_active (_clean latexName s), h1, replaceAll_eq_self (clean_no_arrow s)]

theorem scanGo_single (k : Nat) (val : List Nat) :
    ∀ s : List Nat, scanGo [([k], val)] 0 s = replaceAll [k] val s := by
  intro s
  induction s with
  | nil => rw [replaceAll_nil]; rfl
  | cons a rest ih =>
    by_cases ha : k = a
    · subst ha
      rw [replaceAll_cons, if_pos rfl]
      simp only [scanGo, List.find?, List.isPrefixOf, List.isEmpty, Bool.not_false,
        Bool.and_true, Bool.true_and, beq_self_eq_true, List.length_cons,
        List.length_nil, Nat.add_sub_cancel, ih]
    · rw [replaceAll_cons, if_neg ha]
      have hbeq : (k == a) = false := beq_eq_false_iff_ne.mpr ha
      simp only [scanGo, List.find?, List.isPrefixOf, List.isEmpty, Bool.not_false,
        Bool.and_true, Bool.true_and, hbeq, ih]

theorem one_le_occCount (pat A B : List Nat) : 1 ≤ occCount pat (A ++ pat ++ B) := by
  have hpre : pat.isPrefixOf ((A ++ pat ++ B).drop A.length) = true := by
    rw [List.append_assoc, List.drop_left]
    exact List.isPrefixOf_iff_prefix.mpr (List.prefix_append pat B)
  have hmem : A.length ∈ List.range ((A ++ pat ++ B).length + 1) := by
    rw [List.mem_range]
    simp only [List.length_append]
    omega
  exact List.countP_pos_iff.mpr ⟨A.length, hmem, hpre⟩

/-! The claims. -/

/-- C1: the claim says tab, LF and CR all pass through the active
sanitizer unchanged, and the code's own comment says the same
("C0 except TAB/LF/CR") — but the regex range `\x0B-\x1F` contains
`\x0D`, so `_clean` deletes carriage returns.  On the buffer
`"a" TAB LF CR "b"`, tab and LF survive while CR is removed. -/
theorem C1_cr_removed_by_clean :
    _clean latexName [97, 9, 10, 13, 98] = [97, 9, 10, 98] := by decide

/-- C2: applying the `_ARROWS` table the way the code does — one full
`str.replace` pass per entry, in insertion order — gives, on every
buffer, the same result as the spec's single left-to-right scan in which
an emitted replacement value is never rescanned against a later key.
(The declared table has a single entry whose value does not contain the
key, so the per-entry passes coincide with the one-pass scan.) -/
theorem C2_table_equals_one_pass (s : List Nat) :
    applyTable _ARROWS s = onePassScan _ARROWS s := by
  rw [onePassScan, _ARROWS, scanGo_single]
  simp [applyTable, _ARROWS]

/-- C3: every C0 control byte outside the allow-list {tab, LF, CR} is
absent from the output of the active sanitizer. -/
theorem C3_ctrl_bytes_absent (s : List Nat) (b : Nat) (hb : b < 32) (h9 : b ≠ 9)
    (h10 : b ≠ 10) (h13 : b ≠ 13) : b ∉ _clean latexName s := by
  intro hmem
  have hf := clean_no_ctrl hmem
  have ht : ctrlMatch b = true := (ctrlMatch_iff b).mpr (by omega)
  rw [hf] at ht
  exact Bool.false_ne_true ht

theorem C3_witness : (11 : Nat) ∉ _clean latexName [97, 11, 98] :=
  C3_ctrl_bytes_absent [97, 11, 98] 11 (by decide) (by decide) (by decide) (by decide)

/-- C4: the active sanitizer is idempotent, in particular on buffers
that contain none of the allow-listed control bytes (the spec's
hypothesis). -/
theorem C4_idempotent (s : List Nat) (h : ∀ c ∈ s, c ≠ 9 ∧ c ≠ 10 ∧ c ≠ 13) :
    _clean latexName (_clean latexName s) = _clean latexName s :=
  clean_idem s

theorem C4_witness :
    _clean latexName (_clean latexName [97, 0, 10132]) = _clean latexName [97, 0, 10132] :=
  C4_idempotent [97, 0, 10132] (by decide)

/-- C6 counterexample: the claim promises that a buffer containing the
arrow glyph exactly once sanitizes to a buffer containing the
replacement string exactly once — but a buffer that already contains the
replacement text literally, plus one arrow glyph, sanitizes to a buffer
containing the replacement at two positions. -/
theorem C6_counterexample :
    ([36, 92, 114, 105, 103, 104, 116, 97, 114, 114, 111, 119, 36, 10132].count 10132 = 1) ∧
      occCount arrowValue
        (_clean latexName
          [36, 92, 114, 105, 103, 104, 116, 97, 114, 114, 111, 119, 36, 10132]) ≠ 1 := by
  decide

/-- C6 (amended): a buffer containing the arrow glyph exactly once
sanitizes to a buffer that contains the mapped replacement string at
least once and the original glyph zero times. -/
theorem C6_arrow_replaced (s : List Nat) (h : s.count arrowChar = 1) :
    1 ≤ occCount arrowValue (_clean latexName s) ∧
      (_clean latexName s).count arrowChar = 0 := by
  constructor
  · have hmem : arrowChar ∈ ctrlSub s := by
      apply List.mem_filter.mpr
      refine ⟨List.count_pos_iff.mp (by rw [h]; exact Nat.one_pos), by decide⟩
    rcases replaceAll_decomp arrowValue hmem with ⟨A, B, hAB⟩
    rw [clean_active, hAB]
    exact one_le_occCount arrowValue A B
  · exact List.count_eq_zero.mpr (clean_no_arrow s)

theorem C6_witness :
    1 ≤ occCount arrowValue (_clean latexName [10132]) ∧
      (_clean latexName [10132]).count arrowChar = 0 :=
  C6_arrow_replaced [10132] (by decide)

/-- C7: with any builder other than `latex`, the sanitizer leaves every
buffer unchanged. -/
theorem C7_inactive_identity (builderName : String) (s : List Nat)
    (h : builderName ≠ latexName) : _clean builderName s = s := by
  simp [_clean, h]

theorem C7_witness : _clean "html" [0, 9, 13, 10132] = [0, 9, 13, 10132] :=
  C7_inactive_identity "html" [0, 9, 13, 10132] (by decide)

/-- C9: frame property of the active sanitizer.  The subsequence of
characters that are neither C0 control characters nor the arrow glyph
passes through in order (as a sublist of the output); any such character
never loses occurrences; and if it moreover does not occur in the
replacement value its occurrence count is exactly preserved. -/
theorem C9_nonctrl_frame (s : List Nat) (c : Nat) (hc : 32 ≤ c) (hne : c ≠ arrowChar) :
    List.Sublist (s.filter keepHigh) (_clean latexName s) ∧
      s.count c ≤ (_clean latexName s).count c ∧
      (c ∉ arrowValue → (_clean latexName s).count c = s.count c) := by
  have hkeepc : (fun d => !ctrlMatch d) c = true := by
    show (!ctrlMatch c) = true
    rw [ctrlMatch_eq_false_of_ge hc]
    rfl
  have hcount : (ctrlSub s).count c = s.count c := List.count_filter hkeepc
  refine ⟨?_, ?_, ?_⟩
  · rw [clean_active]
    have h1 : (ctrlSub s).filter keepHigh = s.filter keepHigh := by
      rw [ctrlSub, List.filter_filter]
      apply List.filter_congr
      intro a _
      cases hh : keepHigh a with
      | false => rw [Bool.false_and]
      | true =>
        have h32 : 32 ≤ a := by
          have := (Bool.and_eq_true _ _).mp hh
          exact of_decide_eq_true this.1
        rw [Bool.true_and, Bool.not_eq_true', ctrlMatch_eq_false_of_ge h32]
    rw [← h1]
    exact filter_sublist_replaceAll (by decide) (ctrlSub s)
  · rw [clean_active]
    calc s.count c = (ctrlSub s).count c := hcount.symm
      _ ≤ _ := count_le_replaceAll hne (ctrlSub s)
  · intro hcv
    rw [clean_active, count_replaceAll_eq hne hcv, hcount]

theorem C9_witness :
    List.Sublist ([12, 65, 10132].filter keepHigh) (_clean latexName [12, 65, 10132]) ∧
      [12, 65, 10132].count 65 ≤ (_clean latexName [12, 65, 10132]).count 65 ∧
      (65 ∉ arrowValue →
        (_clean latexName [12, 65, 10132]).count 65 = [12, 65, 10132].count 65) :=
  C9_nonctrl_frame [12, 65, 10132] 65 (by decide) (by decide)

/-! Lemmas about the attribute-dictionary update and the tagger. -/

theorem lookup_cons_of_ne {q a : String} {b : AttrVal} {es : Attrs}
    (h : (q == a) = false) : ((a, b) :: es).lookup q = es.lookup q := by
  rw [List.lookup_cons, h]

theorem beq_symm_false {a b : String} (h : (a == b) = false) : (b == a) = false := by
  rcases Bool.eq_false_or_eq_true (b == a) with hx | hx
  · exfalso
    rw [beq_iff_eq] at hx
    rw [hx] at h
    simp at h
  · exact hx

theorem lookup_map_overwrite (key : String) (v : AttrVal) :
    ∀ attrs : Attrs, attrs.any (fun p => p.1 == key) = true →
      (attrs.map (fun p => if p.1 == key then (key, v) else p)).lookup key = some v := by
  intro attrs
  induction attrs with
  | nil => intro h; exact absurd h (by simp)
  | cons p rest ih =>
    obtain ⟨a, b⟩ := p
    intro hany
    simp only [List.map_cons]
    by_cases ha : (a == key) = true
    · rw [if_pos ha]
      exact List.lookup_cons_self
    · have haf : (a == key) = false := Bool.not_eq_true _ ▸ ha
      have hrest : rest.any (fun p => p.1 == key) = true := by
        rcases (List.any_eq_true).mp hany with ⟨q, hq, hpq⟩
        rcases List.mem_cons.mp hq with hq1 | hq2
        · exfalso
          rw [hq1] at hpq
          exact ha hpq
        · exact (List.any_eq_true).mpr ⟨q, hq2, hpq⟩
      rw [if_neg ha, lookup_cons_of_ne (beq_symm_false haf)]
      exact ih hrest

theorem lookup_append_self (key : String) (v : AttrVal) :
    ∀ attrs : Attrs, attrs.any (fun p => p.1 == key) = false →
      (attrs ++ [(key, v)]).lookup key = some v := by
  intro attrs
  induction attrs with
  | nil => intro _; exact List.lookup_cons_self
  | cons p rest ih =>
    obtain ⟨a, b⟩ := p
    intro hany
    rw [List.any_cons] at hany
    have ha : (a == key) = false := by
      rcases Bool.eq_false_or_eq_true (a == key) with hx | hx
      · rw [hx] at hany
        exact absurd hany (by simp)
      · exact hx
    have hrest : rest.any (fun p => p.1 == key) = false := by
      rw [ha] at hany
      simpa using hany
    rw [List.cons_append, lookup_cons_of_ne (beq_symm_false ha)]
    exact ih hrest

theorem lookup_setAttr_same (attrs : Attrs) (key : String) (v : AttrVal) :
    (setAttr attrs key v).lookup key = some v := by
  rw [setAttr]
  by_cases hany : attrs.any (fun p => p.1 == key) = true
  · rw [if_pos hany]
    exact lookup_map_overwrite key v attrs hany
  · rw [if_neg hany]
    exact lookup_append_self key v attrs (Bool.not_eq_true _ ▸ hany)

theorem lookup_map_other (key : String) (v : AttrVal) (q : String)
    (hq : (q == key) = false) :
    ∀ attrs : Attrs,
      (attrs.map (fun p => if p.1 == key then (key, v) else p)).lookup q =
        attrs.lookup q := by
  intro attrs
  induction attrs with
  | nil => rfl
  | cons p rest ih =>
    obtain ⟨a, b⟩ := p
    simp only [List.map_cons]
    by_cases ha : (a == key) = true
    · have haq : (q == a) = false := by
        have := beq_iff_eq.mp ha
        rw [this]
        exact hq
      rw [if_pos ha, lookup_cons_of_ne hq, lookup_cons_of_ne haq]
      exact ih
    · rw [if_neg ha]
      by_cases hqa : (q == a) = true
      · rw [List.lookup_cons, hqa, List.lookup_cons, hqa]
      · have hqaf : (q == a) = false := Bool.not_eq_true _ ▸ hqa
        rw [lookup_cons_of_ne hqaf, lookup_cons_of_ne hqaf]
        exact ih

theorem lookup_append_other (key : String) (v : AttrVal) (q : String)
    (hq : (q == key) = false) :
    ∀ attrs : Attrs, (attrs ++ [(key, v)]).lookup q = attrs.lookup q := by
  intro attrs
  induction attrs with
  | nil =>
    show List.lookup q [(key, v)] = none
    rw [lookup_cons_of_ne hq]
    rfl
  | cons p rest ih =>
    obtain ⟨a, b⟩ := p
    rw [List.cons_append]
    by_cases hqa : (q == a) = true
    · rw [List.lookup_cons, hqa, List.lookup_cons, hqa]
    · have hqaf : (q == a) = false := Bool.not_eq_true _ ▸ hqa
      rw [lookup_cons_of_ne hqaf, lookup_cons_of_ne hqaf]
      exact ih

theorem lookup_setAttr_other (attrs : Attrs) (key q : String) (v : AttrVal)
    (hq : q ≠ key) : (setAttr attrs key v).lookup q = attrs.lookup q := by
  have hqf : (q == key) = false := beq_eq_false_iff_ne.mpr hq
  rw [setAttr]
  by_cases hany : attrs.any (fun p => p.1 == key) = true
  · rw [if_pos hany]
    exact lookup_map_other key v q hqf attrs
  · rw [if_neg hany]
    exact lookup_append_other key v q hqf attrs

mutual
theorem nodesList_tagTree (hd : Bool) :
    ∀ t : Tree, nodesList (tagTree hd t) = (nodesList t).map (tagEntry hd)
  | .node k attrs cs => by
    rw [tagTree, nodesList, nodesList, List.map_cons, nodesForest_tagForest hd cs]
    rfl
theorem nodesForest_tagForest (hd : Bool) :
    ∀ f : Forest, nodesForest (tagForest hd f) = (nodesForest f).map (tagEntry hd)
  | .nil => rfl
  | .cons t ts => by
    rw [tagForest, nodesForest, nodesForest, List.map_append,
      nodesList_tagTree hd t, nodesForest_tagForest hd ts]
end

mutual
theorem stripAttrs_tagTree (hd : Bool) :
    ∀ t : Tree, stripAttrs (tagTree hd t) = stripAttrs t
  | .node k attrs cs => by
    rw [tagTree, stripAttrs, stripAttrs, stripAttrsForest_tagForest hd cs]
theorem stripAttrsForest_tagForest (hd : Bool) :
    ∀ f : Forest, stripAttrsForest (tagForest hd f) = stripAttrsForest f
  | .nil => rfl
  | .cons t ts => by
    rw [tagForest, stripAttrsForest, stripAttrsForest,
      stripAttrs_tagTree hd t, stripAttrsForest_tagForest hd ts]
end

theorem filter_nonmath_map (hd : Bool) :
    ∀ L : List (NodeKind × Attrs),
      (L.map (tagEntry hd)).filter (fun p => !is_math hd p.1) =
        L.filter (fun p => !is_math hd p.1) := by
  intro L
  induction L with
  | nil => rfl
  | cons p rest ih =>
    rw [List.map_cons, List.filter_cons, List.filter_cons]
    cases hm : is_math hd p.1 with
    | true =>
      have h1 : is_math hd (tagEntry hd p).1 = true := hm
      rw [h1]
      simp only [Bool.not_true, Bool.false_eq_true, if_false]
      exact ih
    | false =>
      have hid : tagEntry hd p = p := by
        simp [tagEntry, hm]
      rw [hid, hm]
      simp [ih]

theorem countP_map_tag (hd : Bool) (L : List (NodeKind × Attrs))
    (h : ∀ p ∈ L, is_math hd p.1 = false →
      ¬(p.2.lookup "nowrap" = some (.boolVal true))) :
    (L.map (tagEntry hd)).countP
        (fun p => decide (p.2.lookup "nowrap" = some (.boolVal true))) =
      L.countP (fun p => is_math hd p.1) := by
  rw [List.countP_map]
  apply List.countP_congr
  intro p hp
  show decide ((tagEntry hd p).2.lookup "nowrap" = some (.boolVal true)) = true ↔
    is_math hd p.1 = true
  cases hm : is_math hd p.1 with
  | true =>
    rw [tagEntry, hm]
    simp only [if_pos rfl]
    simp [lookup_setAttr_same]
  | false =>
    rw [tagEntry, hm]
    simp only [Bool.false_eq_true, if_false]
    simp [h p hp hm]

/-- C5 counterexample: the claim quantifies over every resolved tree,
but a tree whose only node is a non-math node that already carries
`nowrap = true` has zero display-math nodes while the tagged tree has
one node with `nowrap = true`. -/
theorem C5_counterexample :
    mathCount true (.node (.other "paragraph") [("nowrap", .boolVal true)] .nil) = 0 ∧
      nowrapTrueCount
        (_nowrap_all_math latexName true
          (.node (.other "paragraph") [("nowrap", .boolVal true)] .nil)) ≠ 0 := by
  decide

/-- C5 (amended): for a resolved tree in which no non-math node already
has `nowrap = true`, running the tagger with the LaTeX builder active
leaves exactly as many nodes with `nowrap = true` as there are
display-math nodes (counting both recognized variants), and every
non-math node keeps exactly its previous kind and attributes. -/
theorem C5_tag_counts (t : Tree)
    (h : ∀ p ∈ nodesList t, is_math true p.1 = false →
      ¬(p.2.lookup "nowrap" = some (.boolVal true))) :
    nowrapTrueCount (_nowrap_all_math latexName true t) = mathCount true t ∧
      (nodesList (_nowrap_all_math latexName true t)).filter (fun p => !is_math true p.1) =
        (nodesList t).filter (fun p => !is_math true p.1) := by
  have hact : _nowrap_all_math latexName true t = tagTree true t := by
    simp [_nowrap_all_math]
  rw [hact]
  constructor
  · rw [nowrapTrueCount, nodesList_tagTree, countP_map_tag true _ h, mathCount]
  · rw [nodesList_tagTree, filter_nonmath_map]

theorem C5_witness :
    nowrapTrueCount
        (_nowrap_all_math latexName true
          (.node (.other "document") [("source", .strVal "x")]
            (.cons (.node .math_block [] .nil)
              (.cons (.node .displaymath [] .nil) .nil)))) =
      mathCount true
        (.node (.other "document") [("source", .strVal "x")]
          (.cons (.node .math_block [] .nil)
            (.cons (.node .displaymath [] .nil) .nil))) ∧
      (nodesList
          (_nowrap_all_math latexName true
            (.node (.other "document") [("source", .strVal "x")]
              (.cons (.node .math_block [] .nil)
                (.cons (.node .displaymath [] .nil) .nil))))).filter
          (fun p => !is_math true p.1) =
        (nodesList
            (.node (.other "document") [("source", .strVal "x")]
              (.cons (.node .math_block [] .nil)
                (.cons (.node .displaymath [] .nil) .nil)))).filter
          (fun p => !is_math true p.1) :=
  C5_tag_counts
    (.node (.other "document") [("source", .strVal "x")]
      (.cons (.node .math_block [] .nil)
        (.cons (.node .displaymath [] .nil) .nil)))
    (by decide)

/-- C8: with any builder other than `latex`, the tagger returns the tree
unchanged — no node is modified and no `nowrap` attribute is set. -/
theorem C8_inactive_tagger (builderName : String) (hd : Bool) (t : Tree)
    (h : builderName ≠ latexName) : _nowrap_all_math builderName hd t = t := by
  simp [_nowrap_all_math, h]

theorem C8_witness :
    _nowrap_all_math "html" true (.node .math_block [] .nil) = .node .math_block [] .nil :=
  C8_inactive_tagger "html" true (.node .math_block [] .nil) (by decide)

/-- C10: frame property of the active tagger.  Node for node, its entire
effect is `tagEntry`: kinds are untouched and only math-kind nodes have
their attributes changed, the kind-and-child skeleton of the tree is
unchanged, and the one attribute update sets `nowrap` to true (never to
false, never removing it) while leaving every other attribute key
exactly as it was. -/
theorem C10_tagger_frame (hd : Bool) (t : Tree) (attrs : Attrs) (q : String)
    (hq : q ≠ "nowrap") :
    nodesList (tagTree hd t) = (nodesList t).map (tagEntry hd) ∧
      stripAttrs (tagTree hd t) = stripAttrs t ∧
      (setAttr attrs "nowrap" (.boolVal true)).lookup "nowrap" = some (.boolVal true) ∧
      (setAttr attrs "nowrap" (.boolVal true)).lookup q = attrs.lookup q :=
  ⟨nodesList_tagTree hd t, stripAttrs_tagTree hd t,
    lookup_setAttr_same attrs "nowrap" (.boolVal true),
    lookup_setAttr_other attrs "nowrap" q (.boolVal true) hq⟩

theorem C10_witness :
    nodesList (tagTree true (.node .displaymath [("classes", .strVal "x")] .nil)) =
        (nodesList (.node .displaymath [("classes", .strVal "x")] .nil)).map
          (tagEntry true) ∧
      stripAttrs (tagTree true (.node .displaymath [("classes", .strVal "x")] .nil)) =
        stripAttrs (.node .displaymath [("classes", .strVal "x")] .nil) ∧
      (setAttr [("classes", .strVal "x"), ("nowrap", .boolVal false)] "nowrap"
            (.boolVal true)).lookup "nowrap" =
        some (.boolVal true) ∧
      (setAttr [("classes", .strVal "x"), ("nowrap", .boolVal false)] "nowrap"
            (.boolVal true)).lookup "classes" =
        [("classes", .strVal "x"), ("nowrap", .boolVal false)].lookup "classes" :=
  C10_tagger_frame true (.node .displaymath [("classes", .strVal "x")] .nil)
    [("classes", .strVal "x"), ("nowrap", .boolVal false)] "classes" (by decide)

end CoexDocs
